import Mathlib

/-!
Verification of the body-TDA repository (files `bodytda/mesh_utils.py` and
`bodytda/persistent_homology.py`) against its natural-language specification.

The Python code is shallowly embedded: numbers are rationals (`ℚ`), Python
lists are Lean `List`s, and fallible operations (indexing, division,
`max`/`min` of a possibly empty list) return `Option`, with `none` standing
for a raised Python exception.  Calls into the external libraries `gudhi`,
`gudhi.wasserstein` and `gudhi.representations` are uninterpreted function
parameters.
-/

namespace BodyTDA

/-- Python list indexing `l[i]` for a non-negative index: raises
(`none`) when the index is out of range. -/
def pyGet {α : Type} (l : List α) (i : ℕ) : Option α :=
  l.get? i

/-- Python list element assignment `l[i] = a` for a non-negative index:
raises (`none`) when the index is out of range, otherwise returns the
updated list. -/
def pySet {α : Type} (l : List α) (i : ℕ) (a : α) : Option (List α) :=
  if i < l.length then some (l.set i a) else none

/-- Python division `a / b`: raises `ZeroDivisionError` (`none`) when the
divisor is zero. -/
def pyDiv (a b : ℚ) : Option ℚ :=
  if b = 0 then none else some (a / b)

/-- Python `max(l)` on a list: raises (`none`) on the empty list. -/
def pyMax (l : List ℚ) : Option ℚ :=
  match l with
  | [] => none
  | h :: t => some (t.foldl max h)

/-- Python `min(l)` on a list: raises (`none`) on the empty list. -/
def pyMin (l : List ℚ) : Option ℚ :=
  match l with
  | [] => none
  | h :: t => some (t.foldl min h)

/-- The list comprehension `[row[2] for row in scan]` from `scan_height`:
raises (`none`) as soon as some row has fewer than 3 entries. -/
def zList (scan : List (List ℚ)) : Option (List ℚ) :=
  match scan with
  | [] => some []
  | row :: rest => do
      let v ← pyGet row 2
      let vs ← zList rest
      pure (v :: vs)

/-- Embedding of `scan_height` (mesh_utils.py, lines 25-41):
`z = [row[2] for row in scan]; return max(z) - min(z)`. -/
def scan_height (scan : List (List ℚ)) : Option ℚ := do
  let z ← zList scan
  let zmax ← pyMax z
  let zmin ← pyMin z
  pure (zmax - zmin)

/-- The inner loop of `scan_normalization`:
`for j in js: scantemp[i][j] = scantemp[i][j] * coeff`, acting on the row
`scantemp[i]`. -/
def rowLoop (coeff : ℚ) : List ℚ → List ℕ → Option (List ℚ)
  | row, [] => some row
  | row, j :: rest => do
      let v ← pyGet row j
      let row' ← pySet row j (v * coeff)
      rowLoop coeff row' rest

/-- The outer loop of `scan_normalization`:
`for i in is: for j in range(3): scantemp[i][j] = scantemp[i][j] * coeff`,
acting on the whole list of rows. -/
def normLoop (coeff : ℚ) : List (List ℚ) → List ℕ → Option (List (List ℚ))
  | st, [] => some st
  | st, i :: rest => do
      let row ← pyGet st i
      let row' ← rowLoop coeff row (List.range 3)
      let st' ← pySet st i row'
      normLoop coeff st' rest

/-- Embedding of `scan_normalization` (mesh_utils.py, lines 44-67).
The Python code binds `scantemp = scan` (an alias to the same list object,
not a copy) and then mutates `scantemp[i][j]` in place; the returned value
is the final state of that single shared list. -/
def scan_normalization (scan : List (List ℚ)) (target_height : ℚ) :
    Option (List (List ℚ)) := do
  let h ← scan_height scan
  let coeff ← pyDiv target_height h
  normLoop coeff scan (List.range scan.length)

/-- The state of the caller's argument after `scan_normalization` returns
normally.  Because the Python statement `scantemp = scan` makes `scantemp`
an alias of the argument list (no copy is taken), the argument object after
a normal return is exactly the list the function returns. -/
def scan_normalization_argAfter (scan : List (List ℚ)) (target_height : ℚ) :
    Option (List (List ℚ)) :=
  scan_normalization scan target_height

/-- Specification-side description of one normalized row: the first three
coordinates are multiplied by the coefficient, the rest are untouched. -/
def scaleRow (c : ℚ) : List ℚ → List ℚ
  | a :: b :: d :: rest => a * c :: b * c :: d * c :: rest
  | l => l

/-! ### Helper lemmas about the embedded primitives -/

theorem pyGet_eq_some_of_lt {α : Type} (l : List α) (i : ℕ) (d : α)
    (h : i < l.length) : pyGet l i = some (l.getD i d) := by
  unfold pyGet
  rw [List.getD_eq_getElem?_getD, List.get?_eq_getElem?]
  rcases List.getElem?_eq_some_iff.mpr ⟨h, rfl⟩ with hv
  rw [hv]
  rfl

theorem zList_eq_map (scan : List (List ℚ))
    (h : ∀ row ∈ scan, 2 < row.length) :
    zList scan = some (scan.map (fun row => row.getD 2 0)) := by
  induction scan with
  | nil => rfl
  | cons row rest ih =>
      have hrow : 2 < row.length := h row (by simp)
      have hrest : ∀ r ∈ rest, 2 < r.length := fun r hr => h r (by simp [hr])
      simp only [zList, pyGet_eq_some_of_lt row 2 0 hrow, ih hrest,
        Option.bind_eq_bind, Option.some_bind, List.map_cons]
      rfl

theorem foldl_max_le (t : List ℚ) (a : ℚ) :
    ∀ x ∈ a :: t, x ≤ t.foldl max a := by
  induction t generalizing a with
  | nil => intro x hx; simp at hx; simp [hx]
  | cons b t ih =>
      intro x hx
      simp only [List.mem_cons] at hx
      rcases hx with rfl | rfl | hx
      · exact le_trans (le_max_left x b) (ih (max x b) _ (by simp))
      · exact le_trans (le_max_right a x) (ih (max a x) _ (by simp))
      · exact ih (max a b) x (by simp [hx])

theorem foldl_max_mem (t : List ℚ) (a : ℚ) : t.foldl max a ∈ a :: t := by
  induction t generalizing a with
  | nil => simp
  | cons b t ih =>
      simp only [List.foldl_cons]
      rcases List.mem_cons.mp (ih (max a b)) with hm | hm
      · rw [hm]; rcases max_choice a b with hc | hc <;> simp [hc]
      · exact List.mem_cons.mpr (Or.inr (List.mem_cons.mpr (Or.inr hm)))

theorem foldl_min_le (t : List ℚ) (a : ℚ) :
    ∀ x ∈ a :: t, t.foldl min a ≤ x := by
  induction t generalizing a with
  | nil => intro x hx; simp at hx; simp [hx]
  | cons b t ih =>
      intro x hx
      simp only [List.mem_cons] at hx
      rcases hx with rfl | rfl | hx
      · exact le_trans (ih (min x b) _ (by simp)) (min_le_left x b)
      · exact le_trans (ih (min a x) _ (by simp)) (min_le_right a x)
      · exact ih (min a b) x (by simp [hx])

theorem foldl_min_mem (t : List ℚ) (a : ℚ) : t.foldl min a ∈ a :: t := by
  induction t generalizing a with
  | nil => simp
  | cons b t ih =>
      simp only [List.foldl_cons]
      rcases List.mem_cons.mp (ih (min a b)) with hm | hm
      · rw [hm]; rcases min_choice a b with hc | hc <;> simp [hc]
      · exact List.mem_cons.mpr (Or.inr (List.mem_cons.mpr (Or.inr hm)))

theorem scaleRow_length (c : ℚ) (row : List ℚ) :
    (scaleRow c row).length = row.length := by
  rcases row with _ | ⟨a, _ | ⟨b, _ | ⟨d, rest⟩⟩⟩ <;> simp [scaleRow]

theorem scaleRow_getD (c : ℚ) (row : List ℚ) (hrow : 2 < row.length)
    (j : ℕ) (hj : j < 3) :
    (scaleRow c row).getD j 0 = row.getD j 0 * c := by
  rcases row with _ | ⟨a, _ | ⟨b, _ | ⟨d, rest⟩⟩⟩ <;> simp at hrow
  rcases j with _ | _ | _ | j
  · simp [scaleRow]
  · simp [scaleRow]
  · simp [scaleRow]
  · omega

theorem rowLoop_scale (c : ℚ) (row : List ℚ) (hrow : 2 < row.length) :
    rowLoop c row (List.range 3) = some (scaleRow c row) := by
  rcases row with _ | ⟨a, _ | ⟨b, _ | ⟨d, rest⟩⟩⟩ <;> simp at hrow
  have h3 : List.range 3 = [0, 1, 2] := rfl
  rw [h3]
  simp [rowLoop, pyGet, pySet, scaleRow, Nat.succ_lt_succ, List.set]

theorem get?_append_length {α : Type} (pre : List α) (row : α) (l : List α) :
    (pre ++ row :: l).get? pre.length = some row := by
  induction pre with
  | nil => rfl
  | cons a pre ih => exact ih

theorem set_append_length {α : Type} (pre : List α) (row row' : α) (l : List α) :
    (pre ++ row :: l).set pre.length row' = pre ++ row' :: l := by
  induction pre with
  | nil => rfl
  | cons a pre ih => exact congrArg (List.cons a) ih

theorem normLoop_spec (c : ℚ) (post : List (List ℚ)) :
    ∀ pre : List (List ℚ), (∀ row ∈ post, 2 < row.length) →
      normLoop c (pre ++ post) (List.range' pre.length post.length) =
        some (pre ++ post.map (scaleRow c)) := by
  induction post with
  | nil => intro pre _; simp [normLoop, List.range']
  | cons row rest ih =>
      intro pre h
      have hrow : 2 < row.length := h row (by simp)
      have hrest : ∀ r ∈ rest, 2 < r.length := fun r hr => h r (by simp [hr])
      simp only [List.length_cons]
      rw [List.range'_succ]
      simp only [normLoop, Option.bind_eq_bind, pyGet, get?_append_length,
        Option.some_bind, rowLoop_scale c row hrow]
      have hlt : pre.length < (pre ++ row :: rest).length := by
        simp [List.length_append]
      rw [pySet, if_pos hlt, set_append_length]
      have hpre : pre ++ scaleRow c row :: rest =
          (pre ++ [scaleRow c row]) ++ rest := by simp
      have hlen : pre.length + 1 = (pre ++ [scaleRow c row]).length := by simp
      rw [hpre, hlen]
      simp only [Option.some_bind]
      rw [ih (pre ++ [scaleRow c row]) hrest]
      simp

theorem scan_normalization_eq (scan : List (List ℚ)) (th h : ℚ)
    (hrows : ∀ row ∈ scan, 2 < row.length)
    (hh : scan_height scan = some h) (hne : h ≠ 0) :
    scan_normalization scan th = some (scan.map (scaleRow (th / h))) := by
  unfold scan_normalization
  rw [hh]
  simp only [Option.bind_eq_bind, Option.some_bind, pyDiv, if_neg hne]
  have := normLoop_spec (th / h) scan [] hrows
  simpa [List.range_eq_range'] using this

theorem foldl_max_const (c : ℚ) : ∀ t : List ℚ, (∀ x ∈ t, x = c) →
    t.foldl max c = c := by
  intro t ht
  induction t with
  | nil => rfl
  | cons a t ih =>
      have ha : a = c := ht a (by simp)
      subst ha
      simp only [List.foldl_cons, max_self]
      exact ih fun x hx => ht x (by simp [hx])

theorem foldl_min_const (c : ℚ) : ∀ t : List ℚ, (∀ x ∈ t, x = c) →
    t.foldl min c = c := by
  intro t ht
  induction t with
  | nil => rfl
  | cons a t ih =>
      have ha : a = c := ht a (by simp)
      subst ha
      simp only [List.foldl_cons, min_self]
      exact ih fun x hx => ht x (by simp [hx])

theorem zList_const (c : ℚ) : ∀ scan : List (List ℚ),
    (∀ row ∈ scan, pyGet row 2 = some c) →
    zList scan = some (List.replicate scan.length c) := by
  intro scan hc
  induction scan with
  | nil => rfl
  | cons row rest ih =>
      simp only [zList, hc row (by simp), Option.bind_eq_bind, Option.some_bind,
        ih fun r hr => hc r (by simp [hr]), List.length_cons, List.replicate_succ]
      rfl

theorem scan_height_const_zero (scan : List (List ℚ)) (c : ℚ)
    (hne : scan ≠ []) (hc : ∀ row ∈ scan, pyGet row 2 = some c) :
    scan_height scan = some 0 := by
  unfold scan_height
  rw [zList_const c scan hc]
  rcases scan with _ | ⟨row, rest⟩
  · exact absurd rfl hne
  · simp only [List.length_cons, List.replicate_succ, pyMax, pyMin,
      Option.bind_eq_bind, Option.some_bind]
    rw [foldl_max_const c _ (fun x hx => List.eq_of_mem_replicate hx),
      foldl_min_const c _ (fun x hx => List.eq_of_mem_replicate hx)]
    simp

/-- The z-coordinate (index 2) of a point, for use in specifications of
rows known to have at least 3 coordinates. -/
def zcoord (row : List ℚ) : ℚ :=
  row.getD 2 0

theorem scan_height_eq_foldl (row : List ℚ) (rest : List (List ℚ))
    (hrows : ∀ r ∈ row :: rest, 2 < r.length) :
    scan_height (row :: rest) =
      some ((rest.map zcoord).foldl max (zcoord row) -
        (rest.map zcoord).foldl min (zcoord row)) := by
  unfold scan_height
  rw [zList_eq_map _ hrows]
  simp only [List.map_cons, pyMax, pyMin, Option.bind_eq_bind, Option.some_bind]
  rfl

theorem foldl_max_map_mul (c : ℚ) (hc : 0 ≤ c) (t : List ℚ) : ∀ a : ℚ,
    (t.map fun x => x * c).foldl max (a * c) = t.foldl max a * c := by
  induction t with
  | nil => intro a; rfl
  | cons b t ih =>
      intro a
      simp only [List.map_cons, List.foldl_cons]
      rw [← max_mul_of_nonneg _ _ hc]
      exact ih (max a b)

theorem foldl_min_map_mul (c : ℚ) (hc : 0 ≤ c) (t : List ℚ) : ∀ a : ℚ,
    (t.map fun x => x * c).foldl min (a * c) = t.foldl min a * c := by
  induction t with
  | nil => intro a; rfl
  | cons b t ih =>
      intro a
      simp only [List.map_cons, List.foldl_cons]
      rw [← min_mul_of_nonneg _ _ hc]
      exact ih (min a b)

theorem scan_height_nil : scan_height [] = none := rfl

/-- C4: for a non-empty scan whose points each have at least 3 coordinates,
`scan_height` returns the maximum z-coordinate over all points minus the
minimum z-coordinate over all points. -/
theorem scan_height_max_sub_min (scan : List (List ℚ)) (hne : scan ≠ [])
    (hrows : ∀ row ∈ scan, 2 < row.length) :
    ∃ M m, M ∈ scan.map zcoord ∧ m ∈ scan.map zcoord ∧
      (∀ x ∈ scan.map zcoord, x ≤ M) ∧ (∀ x ∈ scan.map zcoord, m ≤ x) ∧
      scan_height scan = some (M - m) := by
  rcases scan with _ | ⟨row, rest⟩
  · exact absurd rfl hne
  · refine ⟨(rest.map zcoord).foldl max (zcoord row),
      (rest.map zcoord).foldl min (zcoord row), ?_, ?_, ?_, ?_,
      scan_height_eq_foldl row rest hrows⟩
    · simpa using foldl_max_mem (rest.map zcoord) (zcoord row)
    · simpa using foldl_min_mem (rest.map zcoord) (zcoord row)
    · intro x hx
      exact foldl_max_le (rest.map zcoord) (zcoord row) x (by simpa using hx)
    · intro x hx
      exact foldl_min_le (rest.map zcoord) (zcoord row) x (by simpa using hx)

/-- C4 witness: the theorem applied to the concrete scan
`[[0,0,5],[1,2,3]]`. -/
theorem scan_height_max_sub_min_witness :
    ([[0, 0, 5], [1, 2, 3]] : List (List ℚ)) ≠ [] ∧
    (∀ row ∈ ([[0, 0, 5], [1, 2, 3]] : List (List ℚ)), 2 < row.length) ∧
    ∃ M m, M ∈ ([[0, 0, 5], [1, 2, 3]] : List (List ℚ)).map zcoord ∧
      m ∈ ([[0, 0, 5], [1, 2, 3]] : List (List ℚ)).map zcoord ∧
      (∀ x ∈ ([[0, 0, 5], [1, 2, 3]] : List (List ℚ)).map zcoord, x ≤ M) ∧
      (∀ x ∈ ([[0, 0, 5], [1, 2, 3]] : List (List ℚ)).map zcoord, m ≤ x) ∧
      scan_height [[0, 0, 5], [1, 2, 3]] = some (M - m) :=
  ⟨by decide, by decide, scan_height_max_sub_min _ (by decide) (by decide)⟩

/-- C10: on a non-empty scan whose points all share one z-coordinate the
height is zero, and `scan_normalization` raises `ZeroDivisionError`
(returns no value): the division `target_height / scan_height(scan)` is
unguarded. -/
theorem scan_normalization_zero_height_raises (scan : List (List ℚ))
    (c target_height : ℚ) (hne : scan ≠ [])
    (hc : ∀ row ∈ scan, pyGet row 2 = some c) :
    scan_normalization scan target_height = none := by
  unfold scan_normalization
  rw [scan_height_const_zero scan c hne hc]
  simp [pyDiv]

/-- C10 witness: the theorem applied to the concrete scan
`[[1,2,5],[3,4,5]]`, whose points share the z-coordinate 5. -/
theorem scan_normalization_zero_height_raises_witness :
    ([[1, 2, 5], [3, 4, 5]] : List (List ℚ)) ≠ [] ∧
    (∀ row ∈ ([[1, 2, 5], [3, 4, 5]] : List (List ℚ)), pyGet row 2 = some 5) ∧
    scan_normalization [[1, 2, 5], [3, 4, 5]] (17 / 10) = none :=
  ⟨by decide, by decide,
    scan_normalization_zero_height_raises _ 5 _ (by decide) (by decide)⟩

/-- C1 counterexample: `scan_normalization` does modify its argument.  On
the scan `[[1,1,1],[0,0,0]]` with target height 2 the call returns normally
and the caller's list afterwards holds `[[2,2,2],[0,0,0]]`, which differs
from the coordinates it held before the call. -/
theorem scan_normalization_pure_cex :
    scan_normalization_argAfter [[1, 1, 1], [0, 0, 0]] 2 =
      some [[2, 2, 2], [0, 0, 0]] ∧
    ([[2, 2, 2], [0, 0, 0]] : List (List ℚ)) ≠ [[1, 1, 1], [0, 0, 0]] := by
  constructor
  · norm_num [scan_normalization_argAfter, scan_normalization, scan_height,
      zList, pyGet, pyMax, pyMin, pyDiv, pySet, normLoop, rowLoop,
      List.range_succ]
  · decide

/-- C1 (amended): `scan_normalization` mutates its argument in place.
Because `scantemp = scan` aliases the argument list, after a normal return
the caller's list holds exactly the returned scaled coordinates, not the
original ones. -/
theorem scan_normalization_mutates (scan : List (List ℚ)) (th h : ℚ)
    (hrows : ∀ row ∈ scan, 2 < row.length)
    (hh : scan_height scan = some h) (hne : h ≠ 0) :
    scan_normalization_argAfter scan th = scan_normalization scan th ∧
    scan_normalization_argAfter scan th =
      some (scan.map (scaleRow (th / h))) :=
  ⟨rfl, scan_normalization_eq scan th h hrows hh hne⟩

/-- C1 witness: the amended theorem applied to the concrete scan
`[[1,1,1],[0,0,0]]` with target height 2. -/
theorem scan_normalization_mutates_witness :
    (∀ row ∈ ([[1, 1, 1], [0, 0, 0]] : List (List ℚ)), 2 < row.length) ∧
    scan_height [[1, 1, 1], [0, 0, 0]] = some 1 ∧ (1 : ℚ) ≠ 0 ∧
    (scan_normalization_argAfter [[1, 1, 1], [0, 0, 0]] 2 =
        scan_normalization [[1, 1, 1], [0, 0, 0]] 2 ∧
      scan_normalization_argAfter [[1, 1, 1], [0, 0, 0]] 2 =
        some (([[1, 1, 1], [0, 0, 0]] : List (List ℚ)).map (scaleRow (2 / 1)))) :=
  ⟨by decide,
    by norm_num [scan_height, zList, pyGet, pyMax, pyMin],
    by norm_num,
    scan_normalization_mutates _ 2 1 (by decide)
      (by norm_num [scan_height, zList, pyGet, pyMax, pyMin]) (by norm_num)⟩

/-- C2 counterexample: for a negative target height the claim fails.  On
the scan `[[0,0,0],[0,0,1]]` (height 1) with target height -1 the returned
scan is `[[0,0,0],[0,0,-1]]`, whose height is 1, not -1. -/
theorem scan_normalization_target_height_cex :
    scan_normalization [[0, 0, 0], [0, 0, 1]] (-1) =
      some [[0, 0, 0], [0, 0, -1]] ∧
    scan_height [[0, 0, 0], [0, 0, -1]] = some 1 ∧ (1 : ℚ) ≠ -1 := by
  refine ⟨?_, ?_, by norm_num⟩
  · norm_num [scan_normalization, scan_height, zList, pyGet, pyMax, pyMin,
      pyDiv, pySet, normLoop, rowLoop, List.range_succ]
  · norm_num [scan_height, zList, pyGet, pyMax, pyMin]

/-- C2 (amended): for a non-empty scan with positive height and a
NON-NEGATIVE target height, the scan returned by `scan_normalization` has
height exactly `target_height`, in exact rational arithmetic. -/
theorem scan_normalization_target_height (scan : List (List ℚ)) (th h : ℚ)
    (hrows : ∀ row ∈ scan, 2 < row.length)
    (hh : scan_height scan = some h) (hpos : 0 < h) (hth : 0 ≤ th) :
    ∃ out, scan_normalization scan th = some out ∧
      scan_height out = some th := by
  have hne : h ≠ 0 := ne_of_gt hpos
  refine ⟨scan.map (scaleRow (th / h)),
    scan_normalization_eq scan th h hrows hh hne, ?_⟩
  rcases scan with _ | ⟨row, rest⟩
  · rw [scan_height_nil] at hh; exact absurd hh (by simp)
  · set c := th / h with hcdef
    have hc : 0 ≤ c := div_nonneg hth (le_of_lt hpos)
    have hrows' : ∀ r ∈ (scaleRow c row) :: rest.map (scaleRow c),
        2 < r.length := by
      intro r hr
      rcases List.mem_cons.mp hr with rfl | hr
      · rw [scaleRow_length]; exact hrows row (by simp)
      · rcases List.mem_map.mp hr with ⟨r0, hr0, rfl⟩
        rw [scaleRow_length]; exact hrows r0 (by simp [hr0])
    have hzc : ∀ r ∈ row :: rest, zcoord (scaleRow c r) = zcoord r * c := by
      intro r hr
      exact scaleRow_getD c r (hrows r hr) 2 (by omega)
    have hmapz : (rest.map (scaleRow c)).map zcoord =
        (rest.map zcoord).map fun x => x * c := by
      rw [List.map_map, List.map_map]
      exact List.map_congr_left fun r hr => hzc r (by simp [hr])
    rw [List.map_cons, scan_height_eq_foldl _ _ hrows', hmapz,
      hzc row (by simp), foldl_max_map_mul c hc, foldl_min_map_mul c hc]
    have hMm : h = (rest.map zcoord).foldl max (zcoord row) -
        (rest.map zcoord).foldl min (zcoord row) := by
      have := scan_height_eq_foldl row rest hrows
      rw [hh] at this
      exact Option.some.inj this
    rw [← sub_mul, ← hMm, hcdef, mul_div_cancel₀ th hne]

/-- C2 witness: the amended theorem applied to the concrete scan
`[[0,0,0],[0,0,2]]` with target height 3. -/
theorem scan_normalization_target_height_witness :
    (∀ row ∈ ([[0, 0, 0], [0, 0, 2]] : List (List ℚ)), 2 < row.length) ∧
    scan_height [[0, 0, 0], [0, 0, 2]] = some 2 ∧ (0 : ℚ) < 2 ∧ (0 : ℚ) ≤ 3 ∧
    ∃ out, scan_normalization [[0, 0, 0], [0, 0, 2]] 3 = some out ∧
      scan_height out = some 3 :=
  ⟨by decide,
    by norm_num [scan_height, zList, pyGet, pyMax, pyMin],
    by norm_num, by norm_num,
    scan_normalization_target_height _ 3 2 (by decide)
      (by norm_num [scan_height, zList, pyGet, pyMax, pyMin])
      (by norm_num) (by norm_num)⟩

/-- C3: normalization is a linear rescaling: each of the first three
coordinates of every point of the result equals the corresponding input
coordinate multiplied by the single coefficient
`target_height / scan_height(scan)`. -/
theorem scan_normalization_linear (scan : List (List ℚ)) (th h : ℚ)
    (hrows : ∀ row ∈ scan, 2 < row.length)
    (hh : scan_height scan = some h) (hpos : 0 < h) :
    ∃ out, scan_normalization scan th = some out ∧
      out.length = scan.length ∧
      ∀ i, i < scan.length → ∀ j, j < 3 →
        (out.getD i []).getD j 0 = (scan.getD i []).getD j 0 * (th / h) := by
  have hne : h ≠ 0 := ne_of_gt hpos
  refine ⟨scan.map (scaleRow (th / h)),
    scan_normalization_eq scan th h hrows hh hne, by simp, ?_⟩
  intro i hi j hj
  have hig : (scan.map (scaleRow (th / h))).getD i [] =
      scaleRow (th / h) (scan.getD i []) := by
    rw [List.getD_eq_getElem _ _ (by simpa using hi),
      List.getD_eq_getElem _ _ hi, List.getElem_map]
  rw [hig]
  exact scaleRow_getD (th / h) _
    (by rw [List.getD_eq_getElem _ _ hi]; exact hrows _ (List.getElem_mem hi))
    j hj

/-- C3 witness: the theorem applied to the concrete scan
`[[1,2,3],[4,5,7]]` with target height 8 (height 4, coefficient 2). -/
theorem scan_normalization_linear_witness :
    (∀ row ∈ ([[1, 2, 3], [4, 5, 7]] : List (List ℚ)), 2 < row.length) ∧
    scan_height [[1, 2, 3], [4, 5, 7]] = some 4 ∧ (0 : ℚ) < 4 ∧
    ∃ out, scan_normalization [[1, 2, 3], [4, 5, 7]] 8 = some out ∧
      out.length = ([[1, 2, 3], [4, 5, 7]] : List (List ℚ)).length ∧
      ∀ i, i < ([[1, 2, 3], [4, 5, 7]] : List (List ℚ)).length → ∀ j, j < 3 →
        (out.getD i []).getD j 0 =
          (([[1, 2, 3], [4, 5, 7]] : List (List ℚ)).getD i []).getD j 0 *
            ((8 : ℚ) / 4) :=
  ⟨by decide,
    by norm_num [scan_height, zList, pyGet, pyMax, pyMin],
    by norm_num,
    scan_normalization_linear _ 8 4 (by decide)
      (by norm_num [scan_height, zList, pyGet, pyMax, pyMin]) (by norm_num)⟩

/-!
### persistent_homology.py

The gudhi library calls are uninterpreted: they enter the embedding as
function parameters.
-/

/-- The loop of `persistence_diagram` appending
`simplex_tree.persistence_intervals_in_dimension(i)` for each index in the
given list. -/
def pdLoop {ST IV : Type} (f : ST → ℕ → IV) (st : ST) : List ℕ → List IV
  | [] => []
  | i :: rest => f st i :: pdLoop f st rest

/-- Embedding of `persistence_diagram` (persistent_homology.py, lines
8-38).  The gudhi calls `AlphaComplex`, `create_simplex_tree`,
`persistence` and `persistence_intervals_in_dimension` are uninterpreted
function parameters. -/
def persistence_diagram {PC AC ST PD IV : Type}
    (alphaComplex : PC → AC) (create_simplex_tree : AC → ST)
    (stPersistence : ST → ℚ → PD)
    (persistence_intervals_in_dimension : ST → ℕ → IV)
    (point_cloud : PC) (dimension : ℕ) (min_persistence : ℚ) :
    PD × List IV :=
  let rips_complex := alphaComplex point_cloud
  let simplex_tree := create_simplex_tree rips_complex
  let pdiagram := stPersistence simplex_tree min_persistence
  let pdiagram_decolor :=
    pdLoop persistence_intervals_in_dimension simplex_tree
      (List.range (dimension + 1))
  (pdiagram, pdiagram_decolor)

/-- The loop of `bottleneck_distance` appending
`gd.bottleneck_distance(pdiagram_decolor_1[i], pdiagram_decolor_2[i])` for
each index in the given list. -/
def bnLoop {D : Type} (gdb : D → D → ℚ) (d1 d2 : List D) :
    List ℕ → Option (List ℚ)
  | [] => some []
  | i :: rest => do
      let x ← pyGet d1 i
      let y ← pyGet d2 i
      let ds ← bnLoop gdb d1 d2 rest
      pure (gdb x y :: ds)

/-- Embedding of `bottleneck_distance` (persistent_homology.py, lines
63-88).  The delegated call `gd.bottleneck_distance` is the uninterpreted
parameter `gdb`. -/
def bottleneck_distance {D : Type} (gdb : D → D → ℚ) (d1 d2 : List D)
    (dimension : ℕ) : Option ℚ := do
  let distances ← bnLoop gdb d1 d2 (List.range (dimension + 1))
  pyMax distances

/-- The loop of `wasserstein_distance` appending
`gw.wasserstein_distance(d1[i], d2[i], order=order, internal_p=p)` for each
index in the given list. -/
def wsLoop {D α : Type} (gwd : D → D → ℚ → ℚ → α) (d1 d2 : List D)
    (order p : ℚ) : List ℕ → Option (List α)
  | [] => some []
  | i :: rest => do
      let x ← pyGet d1 i
      let y ← pyGet d2 i
      let ds ← wsLoop gwd d1 d2 order p rest
      pure (gwd x y order p :: ds)

/-- Embedding of `wasserstein_distance` (persistent_homology.py, lines
91-124).  The delegated call `gw.wasserstein_distance` (with its two
keyword arguments `order` and `internal_p`) is the uninterpreted parameter
`gwd`, and `np.power` is the uninterpreted parameter `npow`; the final line
is `np.power(sum(np.power(distance, p) for distance in distances), 1/p)`. -/
def wasserstein_distance {D α : Type} [AddCommMonoid α]
    (gwd : D → D → ℚ → ℚ → α) (npow : α → ℚ → α) (d1 d2 : List D)
    (p order : ℚ) : Option α := do
  let distances ← wsLoop gwd d1 d2 order p (List.range d1.length)
  pure (npow ((distances.map fun dd => npow dd p).foldl (fun a b => a + b) 0)
    (1 / p))

/-- Embedding of `silhouette` (persistent_homology.py, lines 127-142).
`fit_transform` stands for `Silhouette(resolution=n, weight=w).fit_transform`,
uninterpreted; `default_weight` is the weight of a `Silhouette` built
without a `weight` argument (as for the dimension-0 silhouette `SH0`),
while `weight` is the caller-supplied weight used for `SH1` and `SH2`.
Python list slicing `[:-1]` is `List.dropLast` and `list(x) + list(y)` is
append. -/
def silhouette {I W : Type}
    (fit_transform : ℕ → W → List (List I) → List (List ℚ))
    (default_weight : W) (pdiagram_decolor : List (List I))
    (n0 n1 n2 : ℕ) (weight : W) : Option (List ℚ) := do
  let d0 ← pyGet pdiagram_decolor 0
  let d1 ← pyGet pdiagram_decolor 1
  let d2 ← pyGet pdiagram_decolor 2
  let sh0 ← pyGet (fit_transform n0 default_weight [d0.dropLast]) 0
  let sh1 ← pyGet (fit_transform n1 weight [d1]) 0
  let sh2 ← pyGet (fit_transform n2 weight [d2]) 0
  pure (sh0 ++ sh1 ++ sh2)

theorem pyMax_spec (l : List ℚ) (hne : l ≠ []) :
    ∃ m, pyMax l = some m ∧ m ∈ l ∧ ∀ x ∈ l, x ≤ m := by
  rcases l with _ | ⟨h, t⟩
  · exact absurd rfl hne
  · exact ⟨t.foldl max h, rfl, foldl_max_mem t h, foldl_max_le t h⟩

theorem bnLoop_eq_map {D : Type} [Inhabited D] (gdb : D → D → ℚ)
    (d1 d2 : List D) (idxs : List ℕ)
    (h1 : ∀ i ∈ idxs, i < d1.length) (h2 : ∀ i ∈ idxs, i < d2.length) :
    bnLoop gdb d1 d2 idxs =
      some (idxs.map fun i => gdb (d1.getD i default) (d2.getD i default)) := by
  induction idxs with
  | nil => rfl
  | cons i rest ih =>
      simp only [bnLoop, pyGet_eq_some_of_lt d1 i default (h1 i (by simp)),
        pyGet_eq_some_of_lt d2 i default (h2 i (by simp)),
        ih (fun k hk => h1 k (by simp [hk])) (fun k hk => h2 k (by simp [hk])),
        Option.bind_eq_bind, Option.some_bind, List.map_cons]
      rfl

theorem wsLoop_eq_map {D α : Type} [Inhabited D] (gwd : D → D → ℚ → ℚ → α)
    (d1 d2 : List D) (order p : ℚ) (idxs : List ℕ)
    (h1 : ∀ i ∈ idxs, i < d1.length) (h2 : ∀ i ∈ idxs, i < d2.length) :
    wsLoop gwd d1 d2 order p idxs =
      some (idxs.map fun i =>
        gwd (d1.getD i default) (d2.getD i default) order p) := by
  induction idxs with
  | nil => rfl
  | cons i rest ih =>
      simp only [wsLoop, pyGet_eq_some_of_lt d1 i default (h1 i (by simp)),
        pyGet_eq_some_of_lt d2 i default (h2 i (by simp)),
        ih (fun k hk => h1 k (by simp [hk])) (fun k hk => h2 k (by simp [hk])),
        Option.bind_eq_bind, Option.some_bind, List.map_cons]
      rfl

theorem pdLoop_eq_map {ST IV : Type} (f : ST → ℕ → IV) (st : ST)
    (idxs : List ℕ) : pdLoop f st idxs = idxs.map (f st) := by
  induction idxs with
  | nil => rfl
  | cons i rest ih => simp [pdLoop, ih]

/-- C5: for diagram lists of length at least `dimension + 1`,
`bottleneck_distance` returns the maximum, over homology dimensions
`i = 0 .. dimension`, of the delegated per-dimension bottleneck
distances. -/
theorem bottleneck_distance_max {D : Type} [Inhabited D] (gdb : D → D → ℚ)
    (d1 d2 : List D) (dimension : ℕ)
    (h1 : dimension + 1 ≤ d1.length) (h2 : dimension + 1 ≤ d2.length) :
    ∃ m, bottleneck_distance gdb d1 d2 dimension = some m ∧
      (∃ i, i ≤ dimension ∧ m = gdb (d1.getD i default) (d2.getD i default)) ∧
      ∀ i, i ≤ dimension →
        gdb (d1.getD i default) (d2.getD i default) ≤ m := by
  have hi1 : ∀ i ∈ List.range (dimension + 1), i < d1.length :=
    fun i hi => lt_of_lt_of_le (List.mem_range.mp hi) h1
  have hi2 : ∀ i ∈ List.range (dimension + 1), i < d2.length :=
    fun i hi => lt_of_lt_of_le (List.mem_range.mp hi) h2
  unfold bottleneck_distance
  rw [bnLoop_eq_map gdb d1 d2 _ hi1 hi2]
  simp only [Option.bind_eq_bind, Option.some_bind]
  obtain ⟨m, hm, hmem, hub⟩ := pyMax_spec
    ((List.range (dimension + 1)).map fun i =>
      gdb (d1.getD i default) (d2.getD i default))
    (by simp)
  refine ⟨m, hm, ?_, ?_⟩
  · rcases List.mem_map.mp hmem with ⟨i, hi, hval⟩
    exact ⟨i, Nat.lt_succ_iff.mp (List.mem_range.mp hi), hval.symm⟩
  · intro i hi
    exact hub _ (List.mem_map.mpr ⟨i, List.mem_range.mpr (Nat.lt_succ_iff.mpr hi), rfl⟩)

/-- C5 witness: the theorem applied with the concrete delegated distance
`fun x y => x + y` on the diagram lists `[1,2]` and `[3,4]` with
`dimension = 1`. -/
theorem bottleneck_distance_max_witness :
    1 + 1 ≤ ([(1 : ℚ), 2] : List ℚ).length ∧
    1 + 1 ≤ ([(3 : ℚ), 4] : List ℚ).length ∧
    ∃ m, bottleneck_distance (fun x y : ℚ => x + y) [1, 2] [3, 4] 1 = some m ∧
      (∃ i, i ≤ 1 ∧ m = ([(1 : ℚ), 2] : List ℚ).getD i default +
        ([(3 : ℚ), 4] : List ℚ).getD i default) ∧
      ∀ i, i ≤ 1 → ([(1 : ℚ), 2] : List ℚ).getD i default +
        ([(3 : ℚ), 4] : List ℚ).getD i default ≤ m :=
  ⟨by decide, by decide,
    bottleneck_distance_max (fun x y : ℚ => x + y) [1, 2] [3, 4] 1
      (by decide) (by decide)⟩

/-- C6: for `p > 0` and a second diagram list at least as long as the
(non-empty) first one, `wasserstein_distance` returns the `p`-norm (sum of
`p`-th powers, then `1/p`-th power, both through the uninterpreted
`np.power`) of the delegated per-dimension Wasserstein distances taken over
every index of the first diagram list. -/
theorem wasserstein_distance_pnorm {D α : Type} [Inhabited D]
    [AddCommMonoid α] (gwd : D → D → ℚ → ℚ → α) (npow : α → ℚ → α)
    (d1 d2 : List D) (p order : ℚ) (_hp : 0 < p) (_hne : d1 ≠ [])
    (hlen : d1.length ≤ d2.length) :
    wasserstein_distance gwd npow d1 d2 p order =
      some (npow
        (((List.range d1.length).map fun i =>
          npow (gwd (d1.getD i default) (d2.getD i default) order p) p).sum)
        (1 / p)) := by
  have hi1 : ∀ i ∈ List.range d1.length, i < d1.length :=
    fun i hi => List.mem_range.mp hi
  have hi2 : ∀ i ∈ List.range d1.length, i < d2.length :=
    fun i hi => lt_of_lt_of_le (List.mem_range.mp hi) hlen
  unfold wasserstein_distance
  rw [wsLoop_eq_map gwd d1 d2 order p _ hi1 hi2]
  simp only [Option.bind_eq_bind, Option.some_bind, List.map_map]
  rw [List.sum_eq_foldl]
  rfl

/-- C6 witness: the theorem applied with concrete delegated distance and
power functions on the diagram lists `[1]` and `[2,3]` with `p = 2`. -/
theorem wasserstein_distance_pnorm_witness :
    (0 : ℚ) < 2 ∧ ([(1 : ℚ)] : List ℚ) ≠ [] ∧
    ([(1 : ℚ)] : List ℚ).length ≤ ([(2 : ℚ), 3] : List ℚ).length ∧
    wasserstein_distance (fun x y o q : ℚ => x + y + o + q)
        (fun x q : ℚ => x * q) [1] [2, 3] 2 5 =
      some ((fun x q : ℚ => x * q)
        (((List.range ([(1 : ℚ)] : List ℚ).length).map fun i =>
          (fun x q : ℚ => x * q)
            ((fun x y o q : ℚ => x + y + o + q)
              (([(1 : ℚ)] : List ℚ).getD i default)
              (([(2 : ℚ), 3] : List ℚ).getD i default) 5 2) 2).sum)
        (1 / 2)) :=
  ⟨by norm_num, by decide, by decide,
    wasserstein_distance_pnorm (fun x y o q : ℚ => x + y + o + q)
      (fun x q : ℚ => x * q) [1] [2, 3] 2 5 (by norm_num) (by decide)
      (by decide)⟩

/-- C7: the second component returned by `persistence_diagram` has exactly
`dimension + 1` entries, and its `i`-th entry is the persistence intervals
in homology dimension `i` of the simplex tree built from the point cloud,
for every `i = 0 .. dimension`. -/
theorem persistence_diagram_covers {PC AC ST PD IV : Type}
    (alphaComplex : PC → AC) (create_simplex_tree : AC → ST)
    (stPersistence : ST → ℚ → PD)
    (persistence_intervals_in_dimension : ST → ℕ → IV)
    (point_cloud : PC) (dimension : ℕ) (min_persistence : ℚ) :
    ((persistence_diagram alphaComplex create_simplex_tree stPersistence
        persistence_intervals_in_dimension point_cloud dimension
        min_persistence).2).length = dimension + 1 ∧
    ∀ i, i ≤ dimension →
      ((persistence_diagram alphaComplex create_simplex_tree stPersistence
          persistence_intervals_in_dimension point_cloud dimension
          min_persistence).2).get? i =
        some (persistence_intervals_in_dimension
          (create_simplex_tree (alphaComplex point_cloud)) i) := by
  unfold persistence_diagram
  simp only [pdLoop_eq_map]
  constructor
  · simp
  · intro i hi
    rw [List.get?_eq_getElem?, List.getElem?_map, List.getElem?_range
      (Nat.lt_succ_iff.mpr hi)]
    rfl

/-- C7 witness: the theorem applied to concrete delegated functions with
`dimension = 1`, its per-index part instantiated at `i = 1`. -/
theorem persistence_diagram_covers_witness :
    ((persistence_diagram (fun n : ℕ => n + 1) (fun n : ℕ => n * 2)
        (fun (n : ℕ) (q : ℚ) => (n, q)) (fun n i : ℕ => n + i)
        3 1 0).2).length = 1 + 1 ∧
    ((persistence_diagram (fun n : ℕ => n + 1) (fun n : ℕ => n * 2)
        (fun (n : ℕ) (q : ℚ) => (n, q)) (fun n i : ℕ => n + i)
        3 1 0).2).get? 1 = some ((3 + 1) * 2 + 1) :=
  ⟨(persistence_diagram_covers (fun n : ℕ => n + 1) (fun n : ℕ => n * 2)
      (fun (n : ℕ) (q : ℚ) => (n, q)) (fun n i : ℕ => n + i) 3 1 0).1,
    (persistence_diagram_covers (fun n : ℕ => n + 1) (fun n : ℕ => n * 2)
      (fun (n : ℕ) (q : ℚ) => (n, q)) (fun n i : ℕ => n + i) 3 1 0).2
      1 (by decide)⟩

/-- C9: `silhouette` vectorizes all but the last interval of the
dimension-0 diagram (entry 0 of the input, with `[:-1]` applied), the
dimension-1 and dimension-2 diagrams in full, and returns the
concatenation of the three per-dimension silhouette vectors in order of
dimension 0, 1, 2. -/
theorem silhouette_concat {I W : Type}
    (fit_transform : ℕ → W → List (List I) → List (List ℚ))
    (default_weight : W) (pdiagram_decolor : List (List I))
    (n0 n1 n2 : ℕ) (weight : W) (d0 d1 d2 : List I) (v0 v1 v2 : List ℚ)
    (h0 : pdiagram_decolor.get? 0 = some d0)
    (h1 : pdiagram_decolor.get? 1 = some d1)
    (h2 : pdiagram_decolor.get? 2 = some d2)
    (hf0 : (fit_transform n0 default_weight [d0.dropLast]).get? 0 = some v0)
    (hf1 : (fit_transform n1 weight [d1]).get? 0 = some v1)
    (hf2 : (fit_transform n2 weight [d2]).get? 0 = some v2) :
    silhouette fit_transform default_weight pdiagram_decolor n0 n1 n2 weight =
      some (v0 ++ v1 ++ v2) := by
  unfold silhouette pyGet
  rw [h0, h1, h2]
  simp only [Option.bind_eq_bind, Option.some_bind]
  rw [hf0, hf1, hf2]
  rfl

/-- C9 witness: the theorem applied to a concrete three-entry diagram list
and a concrete vectorizer. -/
theorem silhouette_concat_witness :
    ([[0], [1], [2]] : List (List ℕ)).get? 0 = some [0] ∧
    ([[0], [1], [2]] : List (List ℕ)).get? 1 = some [1] ∧
    ([[0], [1], [2]] : List (List ℕ)).get? 2 = some [2] ∧
    ((fun (_ : ℕ) (_ : ℕ) (_ : List (List ℕ)) => [[(1 : ℚ)]]) 25 0
      [([0] : List ℕ).dropLast]).get? 0 = some [1] ∧
    silhouette (fun (_ : ℕ) (_ : ℕ) (_ : List (List ℕ)) => [[(1 : ℚ)]]) 0
        [[0], [1], [2]] 25 250 250 7 =
      some ([(1 : ℚ)] ++ [1] ++ [1]) :=
  ⟨by decide, by decide, by decide, by decide,
    silhouette_concat (fun _ _ _ => [[(1 : ℚ)]]) 0 [[0], [1], [2]]
      25 250 250 7 [0] [1] [2] [1] [1] [1] (by decide) (by decide)
      (by decide) (by decide) (by decide) (by decide)⟩

/-- C8: the four embedded functions are deterministic functions of their
input values (with the delegated library calls fixed): two runs on equal
inputs return equal results, with no hidden state.  (Note that
`scan_normalization` does mutate its argument object, but its result is
still determined by the argument's value at call time.) -/
theorem functions_deterministic :
    (∀ s1 s2 : List (List ℚ), s1 = s2 → scan_height s1 = scan_height s2) ∧
    (∀ (s1 s2 : List (List ℚ)) (t1 t2 : ℚ), s1 = s2 → t1 = t2 →
      scan_normalization s1 t1 = scan_normalization s2 t2) ∧
    (∀ (D : Type) (gdb : D → D → ℚ) (d1 d2 e1 e2 : List D) (k1 k2 : ℕ),
      d1 = e1 → d2 = e2 → k1 = k2 →
      bottleneck_distance gdb d1 d2 k1 = bottleneck_distance gdb e1 e2 k2) ∧
    (∀ (D α : Type) (inst : AddCommMonoid α) (gwd : D → D → ℚ → ℚ → α)
      (npow : α → ℚ → α) (d1 d2 e1 e2 : List D) (p1 p2 o1 o2 : ℚ),
      d1 = e1 → d2 = e2 → p1 = p2 → o1 = o2 →
      @wasserstein_distance D α inst gwd npow d1 d2 p1 o1 =
        @wasserstein_distance D α inst gwd npow e1 e2 p2 o2) := by
  refine ⟨?_, ?_, ?_, ?_⟩
  · intro s1 s2 hs; rw [hs]
  · intro s1 s2 t1 t2 hs ht; rw [hs, ht]
  · intro D gdb d1 d2 e1 e2 k1 k2 h1 h2 hk; rw [h1, h2, hk]
  · intro D α inst gwd npow d1 d2 e1 e2 p1 p2 o1 o2 h1 h2 hp ho
    rw [h1, h2, hp, ho]

/-- C8 witness: determinism instantiated at concrete inputs for all four
functions. -/
theorem functions_deterministic_witness :
    scan_height [[1, 2, 3]] = scan_height [[1, 2, 3]] ∧
    scan_normalization [[1, 2, 3]] 2 = scan_normalization [[1, 2, 3]] 2 ∧
    bottleneck_distance (fun x y : ℚ => x + y) [1] [2] 0 =
      bottleneck_distance (fun x y : ℚ => x + y) [1] [2] 0 ∧
    wasserstein_distance (fun x y o q : ℚ => x + y + o + q)
        (fun x q : ℚ => x * q) [1] [2] 2 2 =
      wasserstein_distance (fun x y o q : ℚ => x + y + o + q)
        (fun x q : ℚ => x * q) [1] [2] 2 2 :=
  ⟨functions_deterministic.1 [[1, 2, 3]] [[1, 2, 3]] rfl,
    (functions_deterministic.2.1) [[1, 2, 3]] [[1, 2, 3]] 2 2 rfl rfl,
    (functions_deterministic.2.2.1) ℚ (fun x y : ℚ => x + y)
      [1] [2] [1] [2] 0 0 rfl rfl rfl,
    (functions_deterministic.2.2.2) ℚ ℚ inferInstance
      (fun x y o q : ℚ => x + y + o + q) (fun x q : ℚ => x * q)
      [1] [2] [1] [2] 2 2 2 2 rfl rfl rfl rfl⟩

end BodyTDA
